import Mathlib

/-!
Verification development for the cranium markdown engine.

The repository ships the C interface header `include/cranium.h`; the Zig
implementation behind it (markdown parser, arena, gap-buffer edit session)
is not part of the source tree available here, so the behaviour of those
components is modelled from the design specification, faithful to its
words, and the claims of the specification are settled against that model.
Buffers are byte lists (`List Nat`), pointers into the buffer are byte
offsets, and string slices are `(start, len)` spans into the original
buffer.
-/

/-- A zero-copy string slice: a `(start, length)` span of byte offsets into
the original source buffer (the embedding of a pointer into the buffer plus
a length, as in `CBlock.content_ptr`/`content_len`). -/
structure Span where
  start : Nat
  len : Nat
deriving DecidableEq

/-- Block type tags, mirroring the `BlockTypeTag` enum of `cranium.h`
(`BlockType_Document = 0` … `BlockType_Image = 14`). -/
inductive BlockTypeTag where
  | Document
  | Paragraph
  | Heading
  | CodeBlock
  | BlockQuote
  | OrderedList
  | OrderedListItem
  | UnorderedList
  | UnorderedListItem
  | RawStr
  | Strong
  | Emphasis
  | StrongEmph
  | Link
  | Image
deriving DecidableEq

/-- The numeric value of each enum tag, as fixed by `cranium.h`. -/
def BlockTypeTag.tagValue : BlockTypeTag → Nat
  | .Document => 0
  | .Paragraph => 1
  | .Heading => 2
  | .CodeBlock => 3
  | .BlockQuote => 4
  | .OrderedList => 5
  | .OrderedListItem => 6
  | .UnorderedList => 7
  | .UnorderedListItem => 8
  | .RawStr => 9
  | .Strong => 10
  | .Emphasis => 11
  | .StrongEmph => 12
  | .Link => 13
  | .Image => 14

/-- Structural (block-level) tags are the enum values `0`–`8`; inline tags
are `9`–`14` (comment in `cranium.h`). -/
def isStructural : BlockTypeTag → Bool
  | .Document | .Paragraph | .Heading | .CodeBlock | .BlockQuote
  | .OrderedList | .OrderedListItem | .UnorderedList | .UnorderedListItem => true
  | _ => false

/-- A node of the Block Tree, the embedding of `CBlock` from `cranium.h`:
tag, numeric value (`block_type_value`), id (`block_id`), optional
annotation slice (`block_type_str_ptr`/`len`, the URL of a Link/Image),
optional content slice (`content_ptr`/`len`), the source span the block
covers (used for cursor re-anchoring), and the ordered child list. -/
inductive Block where
  | node (kind : BlockTypeTag) (value : Nat) (ident : Nat)
      (anno : Option Span) (content : Option Span)
      (src : Span) (children : List Block)

def Block.kind : Block → BlockTypeTag
  | .node k _ _ _ _ _ _ => k

def Block.value : Block → Nat
  | .node _ v _ _ _ _ _ => v

def Block.ident : Block → Nat
  | .node _ _ i _ _ _ _ => i

def Block.anno : Block → Option Span
  | .node _ _ _ a _ _ _ => a

def Block.content : Block → Option Span
  | .node _ _ _ _ c _ _ => c

def Block.src : Block → Span
  | .node _ _ _ _ _ s _ => s

def Block.children : Block → List Block
  | .node _ _ _ _ _ _ cs => cs

/-- The bytes a slice designates: reading `len` bytes of the original
buffer starting at byte offset `start` (zero-copy: the slice is read from
the live buffer, never from a copy). -/
def sliceBytes (buf : List Nat) (sp : Span) : List Nat :=
  (buf.drop sp.start).take sp.len

/-- UTF-8 continuation byte: `0x80 ≤ b ≤ 0xBF`. -/
def isCont (b : Nat) : Bool := 128 ≤ b && b < 192

/-- Count the leading run of bytes equal to `c`. -/
def countLeading (c : Nat) : List Nat → Nat
  | [] => 0
  | b :: bs => if b == c then countLeading c bs + 1 else 0

/-- Bytes that open an inline construct: `*`, `_`, `[`, `!`. -/
def isSpecial (b : Nat) : Bool := b == 42 || b == 95 || b == 91 || b == 33

/-- A RawText leaf covering `len` bytes at offset `base`: malformed or
plain input degrades to this node, its content slice pointing at the
source bytes themselves. -/
def mkRaw (base len : Nat) : Block :=
  .node .RawStr 0 0 none (some ⟨base, len⟩) ⟨base, len⟩ []

/-- Emphasis strength to tag: single marker = Emphasis, double = Strong,
triple = StrongEmph. -/
def emphKind : Nat → BlockTypeTag
  | 1 => .Emphasis
  | 2 => .Strong
  | _ => .StrongEmph

/-- Find the first position whose leading run of byte `c` has length at
least `d` (the nearest closing emphasis marker of equal or greater
strength); `none` when no such run exists. -/
def findRun (c d : Nat) : List Nat → Option Nat
  | [] => none
  | b :: bs =>
    if b == c && d ≤ countLeading c (b :: bs) then some 0
    else (findRun c d bs).map (· + 1)

/-- Modelled from the spec: the link-body scan of the inline parser of
`md_parser.zig` (not under `src/`).  Given the bytes after an opening
`[`, recognise `text](url)` and return `(text length, url length)`;
`none` when the syntax is unterminated or malformed. -/
def parseLinkBody (t : List Nat) : Option (Nat × Nat) :=
  let j := t.findIdx (fun b => b == 93)
  let t3 := t.drop (j + 2)
  let k := t3.findIdx (fun b => b == 41)
  if decide (j < t.length) && ((t.drop (j + 1)).headD 0 == 40) && decide (k < t3.length) then
    some (j, k)
  else none

/-- Modelled from the spec: the inline-level scanner of `md_parser.zig`
(not under `src/`).  Scans the byte run `s` (whose first byte sits at
absolute offset `base` in the source buffer) left to right for emphasis
markers (`*`/`_`; single = Emphasis, double = Strong, triple =
StrongEmph, matched by the nearest closing run of equal or greater
strength) and for `[text](url)` / `![text](url)`; unmatched or malformed
markers degrade to literal RawText, so the scan is total.  `fuel` bounds
the recursion; the callers supply `s.length + 1`, which is never
exhausted because every step consumes at least one byte. -/
def inlineParseF : Nat → Nat → List Nat → List Block
  | 0, base, s => if s.isEmpty then [] else [mkRaw base s.length]
  | fuel + 1, base, s =>
    let i := s.findIdx isSpecial
    if i < s.length then
      let pre : List Block := if i == 0 then [] else [mkRaw base i]
      let u := s.drop i
      let b0 := s.getD i 0
      if b0 == 42 || b0 == 95 then
        let d := min (countLeading b0 u) 3
        match findRun b0 d (u.drop d) with
        | some j =>
          let inner := (u.drop d).take j
          pre ++ Block.node (emphKind d) 0 0 none none ⟨base + i, d + j + d⟩
              (inlineParseF fuel (base + i + d) inner)
            :: inlineParseF fuel (base + i + d + j + d) (s.drop (i + d + j + d))
        | none =>
          pre ++ mkRaw (base + i) d :: inlineParseF fuel (base + i + d) (s.drop (i + d))
      else if b0 == 91 then
        match parseLinkBody (u.drop 1) with
        | some (j, k) =>
          pre ++ Block.node .Link 0 0 (some ⟨base + i + 1 + j + 2, k⟩) none
              ⟨base + i, j + k + 4⟩ (inlineParseF fuel (base + i + 1) ((u.drop 1).take j))
            :: inlineParseF fuel (base + i + j + k + 4) (s.drop (i + j + k + 4))
        | none =>
          pre ++ mkRaw (base + i) 1 :: inlineParseF fuel (base + i + 1) (s.drop (i + 1))
      else
        if u.getD 1 0 == 91 then
          match parseLinkBody (u.drop 2) with
          | some (j, k) =>
            pre ++ Block.node .Image 0 0 (some ⟨base + i + 2 + j + 2, k⟩) none
                ⟨base + i, j + k + 5⟩ (inlineParseF fuel (base + i + 2) ((u.drop 2).take j))
              :: inlineParseF fuel (base + i + j + k + 5) (s.drop (i + j + k + 5))
          | none =>
            pre ++ mkRaw (base + i) 1 :: inlineParseF fuel (base + i + 1) (s.drop (i + 1))
        else
          pre ++ mkRaw (base + i) 1 :: inlineParseF fuel (base + i + 1) (s.drop (i + 1))
    else
      if s.isEmpty then [] else [mkRaw base s.length]

/-- One source line: the absolute byte offset of its first byte in the
buffer and its bytes (without the terminating newline). -/
structure Line where
  start : Nat
  bytes : List Nat

/-- Split off the first line: bytes up to (excluding) the first `\n`
byte, and the remainder after it. -/
def takeLine : List Nat → List Nat × List Nat
  | [] => ([], [])
  | b :: bs =>
    if b == 10 then ([], bs)
    else
      let p := takeLine bs
      (b :: p.1, p.2)

theorem takeLine_snd_lt (bs : List Nat) (h : bs ≠ []) :
    (takeLine bs).2.length < bs.length := by
  induction bs with
  | nil => simp at h
  | cons b t ih =>
    simp only [takeLine]
    split
    · simp
    · rcases t with _ | ⟨c, t⟩
      · simp [takeLine]
      · simpa using Nat.lt_succ_of_lt (ih (by simp))

/-- Split a buffer into lines, tracking each line's absolute start
offset (`pos` is the offset of the first byte of `bs`). -/
def splitLinesF : Nat → Nat → List Nat → List Line
  | 0, _, _ => []
  | _ + 1, _, [] => []
  | fuel + 1, pos, b :: t =>
    let p := takeLine (b :: t)
    ⟨pos, p.1⟩ :: splitLinesF fuel (pos + p.1.length + 1) p.2

/-- Split a buffer into lines.  `splitLinesF` is driven by fuel
`bs.length + 1`, which is never exhausted because every step consumes
the first line and its newline byte. -/
def splitLinesFrom (pos : Nat) (bs : List Nat) : List Line :=
  splitLinesF (bs.length + 1) pos bs

/-- Classification of one source line by its leading-marker scan. -/
inductive LineKind where
  | blank
  | fence
  | heading (level : Nat)
  | quote
  | unordered
  | ordered (digits : Nat)
  | text
deriving DecidableEq

/-- Leading digit-run length. -/
def countDigits : List Nat → Nat
  | [] => 0
  | b :: bs => if 48 ≤ b && b ≤ 57 then countDigits bs + 1 else 0

/-- Modelled from the spec: the line classifier of the block-level parser
of `md_parser.zig` (not under `src/`).  A line is blank (spaces/tabs
only, paragraph break), a fenced-code delimiter (three backticks), a
heading (`#` × 1–6 followed by a space), a blockquote line (leading `>`),
an unordered-list line (`-`/`*`/`+` followed by a space), an
ordered-list line (digits then `.` or `)`), or plain text. -/
def classify (bs : List Nat) : LineKind :=
  if bs.all (fun b => b == 32 || b == 9) then .blank
  else if bs.take 3 == [96, 96, 96] then .fence
  else
    let h := countLeading 35 bs
    if 1 ≤ h && h ≤ 6 && bs.getD h 0 == 32 then .heading h
    else if bs.headD 0 == 62 then .quote
    else if (bs.headD 0 == 45 || bs.headD 0 == 42 || bs.headD 0 == 43)
        && bs.getD 1 0 == 32 then .unordered
    else
      let d := countDigits bs
      if 1 ≤ d && (bs.getD d 0 == 46 || bs.getD d 0 == 41) then .ordered d
      else .text

/-- Strip one `>` marker (and one following space, if present) from a
blockquote line, keeping the line anchored at its new absolute offset in
the original buffer. -/
def stripQuote (L : Line) : Line :=
  let b1 := L.bytes.drop 1
  if b1.headD 0 == 32 then ⟨L.start + 2, b1.drop 1⟩ else ⟨L.start + 1, b1⟩

/-- End offset (exclusive) of the last line of the nonempty run
`L :: ls`. -/
def runEnd (L : Line) : List Line → Nat
  | [] => L.start + L.bytes.length
  | M :: ms => runEnd M ms

/-- The byte segment of the buffer starting at offset `start`, at most
`n` bytes long. -/
def segAt (buf : List Nat) (start n : Nat) : List Nat :=
  (buf.drop start).take n

/-- Inline-parse the buffer segment `[start, start+n)`, reading the bytes
from the original buffer. -/
def inlineAt (buf : List Nat) (start n : Nat) : List Block :=
  inlineParseF ((segAt buf start n).length + 1) start (segAt buf start n)

/-- An unordered-list item line: marker and space stripped, the rest
inline-parsed. -/
def mkUnorderedItem (buf : List Nat) (depth : Nat) (L : Line) : Block :=
  .node .UnorderedListItem depth 0 none (some ⟨L.start + 2, L.bytes.length - 2⟩)
    ⟨L.start, L.bytes.length⟩ (inlineAt buf (L.start + 2) (L.bytes.length - 2))

/-- Offset of the content of an ordered-list item line whose digit run
has length `d`: past the digits, the `.`/`)` marker, and one following
space when present. -/
def orderedSkip (d : Nat) (bs : List Nat) : Nat :=
  if bs.getD (d + 1) 0 == 32 then d + 2 else d + 1

/-- An ordered-list item line: number, marker and space stripped, the
rest inline-parsed. -/
def mkOrderedItem (buf : List Nat) (depth d : Nat) (L : Line) : Block :=
  let m := orderedSkip d L.bytes
  .node .OrderedListItem depth 0 none (some ⟨L.start + m, L.bytes.length - m⟩)
    ⟨L.start, L.bytes.length⟩ (inlineAt buf (L.start + m) (L.bytes.length - m))

def isQuoteLine (L : Line) : Bool := classify L.bytes == .quote
def isTextLine (L : Line) : Bool := classify L.bytes == .text
def isFenceLine (L : Line) : Bool := classify L.bytes == .fence
def isUnorderedLine (L : Line) : Bool := classify L.bytes == .unordered

/-- Whether a line classifies as an ordered-list line (any digit run). -/
def isOrderedLineK : Line → Bool
  | L => match classify L.bytes with
    | .ordered _ => true
    | _ => false

/-- Modelled from the spec: the block-level, line-oriented parser of
`md_parser.zig` (not under `src/`).  Processes the lines in order,
classifying each by its leading marker: blank lines are paragraph
breaks; a heading line becomes a Heading with its level as numeric
value; a run of blockquote lines becomes a BlockQuote of the next
nesting depth whose children are the parse of the same lines with one
marker stripped; runs of list lines become an Ordered/UnorderedList of
the current depth containing one list item per line; a fence line opens
a CodeBlock absorbing lines up to the closing fence (or the end of
input, so unterminated fences never fail); contiguous text lines
accumulate into one Paragraph whose text run is inline-parsed.  `fuel`
bounds the recursion; callers supply `buffer length + line count + 1`,
which is never exhausted because every step consumes a line or strips a
marker byte.  Ids are assigned afterwards by `assignIds`. -/
def parseBlocks (buf : List Nat) : Nat → Nat → List Line → List Block
  | 0, _, _ => []
  | _ + 1, _, [] => []
  | fuel + 1, depth, L :: rest =>
    match classify L.bytes with
    | .blank => parseBlocks buf fuel depth rest
    | .heading h =>
      Block.node .Heading h 0 none (some ⟨L.start + h + 1, L.bytes.length - (h + 1)⟩)
          ⟨L.start, L.bytes.length⟩ []
        :: parseBlocks buf fuel depth rest
    | .fence =>
      let inner := rest.takeWhile (fun M => !isFenceLine M)
      let contentSp : Option Span :=
        match inner with
        | [] => none
        | Li :: more => some ⟨Li.start, runEnd Li more - Li.start⟩
      let srcEnd := runEnd L (inner ++ (rest.drop inner.length).take 1)
      Block.node .CodeBlock 0 0 none contentSp ⟨L.start, srcEnd - L.start⟩ []
        :: parseBlocks buf fuel depth (rest.drop (inner.length + 1))
    | .quote =>
      let run := rest.takeWhile isQuoteLine
      let stripped := (L :: run).map stripQuote
      Block.node .BlockQuote (depth + 1) 0 none none
          ⟨L.start, runEnd L run - L.start⟩ (parseBlocks buf fuel (depth + 1) stripped)
        :: parseBlocks buf fuel depth (rest.drop run.length)
    | .unordered =>
      let run := rest.takeWhile isUnorderedLine
      Block.node .UnorderedList depth 0 none none
          ⟨L.start, runEnd L run - L.start⟩ ((L :: run).map (mkUnorderedItem buf depth))
        :: parseBlocks buf fuel depth (rest.drop run.length)
    | .ordered d =>
      let run := rest.takeWhile isOrderedLineK
      Block.node .OrderedList depth 0 none none
          ⟨L.start, runEnd L run - L.start⟩
          (mkOrderedItem buf depth d L :: run.map (fun M => mkOrderedItem buf depth (countDigits M.bytes) M))
        :: parseBlocks buf fuel depth (rest.drop run.length)
    | .text =>
      let run := rest.takeWhile isTextLine
      let stop := runEnd L run
      Block.node .Paragraph 0 0 none none ⟨L.start, stop - L.start⟩
          (inlineAt buf L.start (stop - L.start))
        :: parseBlocks buf fuel depth (rest.drop run.length)

/-- Modelled from the spec: one full parse of a buffer (the parsing step
of `openDocument`, whose implementation is not under `src/`): split into
lines and parse the block structure under a fresh Document root spanning
the whole buffer.  Total over arbitrary byte input; ids are all `0`
until `assignIds` numbers the tree. -/
def parseDoc (buf : List Nat) : Block :=
  let lines := splitLinesFrom 0 buf
  Block.node .Document 0 0 none none ⟨0, buf.length⟩
    (parseBlocks buf (buf.length + lines.length + 1) 0 lines)

mutual

/-- Modelled from the spec: identifier assignment of the parser (not
under `src/`).  Each block receives the next integer from the
monotonically increasing per-document counter `c`, in pre-order (a node
before its children, children in document order); returns the renumbered
tree and the counter after it. -/
def assignIds (c : Nat) : Block → Block × Nat
  | .node k v _ a ct sp cs =>
    let p := assignIdsL (c + 1) cs
    (.node k v c a ct sp p.1, p.2)

/-- Pre-order id assignment over a child list, threading the counter. -/
def assignIdsL (c : Nat) : List Block → List Block × Nat
  | [] => ([], c)
  | b :: bs =>
    let p := assignIds c b
    let q := assignIdsL p.2 bs
    (p.1 :: q.1, q.2)

end

/-- Modelled from the spec: the full parse performed by `openDocument`
(implementation not under `src/`): parse the buffer and number the tree
from a fresh per-document id counter starting at `0`. -/
def parseFull (buf : List Nat) : Block :=
  (assignIds 0 (parseDoc buf)).1

mutual

/-- Number of blocks in a tree. -/
def bsize : Block → Nat
  | .node _ _ _ _ _ _ cs => 1 + bsizeL cs

/-- Number of blocks in a forest. -/
def bsizeL : List Block → Nat
  | [] => 0
  | b :: bs => bsize b + bsizeL bs

end

mutual

/-- Pre-order list of the ids of a tree. -/
def preIds : Block → List Nat
  | .node _ _ i _ _ _ cs => i :: preIdsL cs

/-- Pre-order list of the ids of a forest. -/
def preIdsL : List Block → List Nat
  | [] => []
  | b :: bs => preIds b ++ preIdsL bs

end

mutual

/-- Pre-order list of `(kind, numeric_value, id)` triples of a tree. -/
def preTriples : Block → List (BlockTypeTag × Nat × Nat)
  | .node k v i _ _ _ cs => (k, v, i) :: preTriplesL cs

/-- Pre-order list of `(kind, numeric_value, id)` triples of a forest. -/
def preTriplesL : List Block → List (BlockTypeTag × Nat × Nat)
  | [] => []
  | b :: bs => preTriples b ++ preTriplesL bs

end

mutual

/-- Every block of a tree, the root included. -/
def allBlocks : Block → List Block
  | .node k v i a ct sp cs => .node k v i a ct sp cs :: allBlocksL cs

/-- Every block of a forest. -/
def allBlocksL : List Block → List Block
  | [] => []
  | b :: bs => allBlocks b ++ allBlocksL bs

end

/-- Modelled from the spec: the UTF-8 validation performed at the
`insert_text` boundary (implementation not under `src/`): the standard
byte-level UTF-8 well-formedness check (continuation counts, and the
restricted second-byte ranges that exclude overlong forms, surrogates
and code points above U+10FFFF). -/
def validUtf8 : List Nat → Bool
  | [] => true
  | b :: bs =>
    if b ≤ 127 then validUtf8 bs
    else if 194 ≤ b && b ≤ 223 then
      match bs with
      | b1 :: r => isCont b1 && validUtf8 r
      | [] => false
    else if b == 224 then
      match bs with
      | b1 :: b2 :: r => (160 ≤ b1 && b1 ≤ 191) && isCont b2 && validUtf8 r
      | _ => false
    else if 225 ≤ b && b ≤ 236 then
      match bs with
      | b1 :: b2 :: r => isCont b1 && isCont b2 && validUtf8 r
      | _ => false
    else if b == 237 then
      match bs with
      | b1 :: b2 :: r => (128 ≤ b1 && b1 ≤ 159) && isCont b2 && validUtf8 r
      | _ => false
    else if 238 ≤ b && b ≤ 239 then
      match bs with
      | b1 :: b2 :: r => isCont b1 && isCont b2 && validUtf8 r
      | _ => false
    else if b == 240 then
      match bs with
      | b1 :: b2 :: b3 :: r => (144 ≤ b1 && b1 ≤ 191) && isCont b2 && isCont b3 && validUtf8 r
      | _ => false
    else if 241 ≤ b && b ≤ 243 then
      match bs with
      | b1 :: b2 :: b3 :: r => isCont b1 && isCont b2 && isCont b3 && validUtf8 r
      | _ => false
    else if b == 244 then
      match bs with
      | b1 :: b2 :: b3 :: r => (128 ≤ b1 && b1 ≤ 143) && isCont b2 && isCont b3 && validUtf8 r
      | _ => false
    else false

/-- Modelled from the spec: the gap buffer of the edit session
(implementation not under `src/`).  A contiguous byte store with a
movable empty gap; `front` is the text before the gap, `back` the text
after it, so the logical text is `front ++ back` and the gap sits at
offset `front.length`. -/
structure GapBuffer where
  front : List Nat
  back : List Nat

/-- The logical text stored in a gap buffer. -/
def GapBuffer.text (g : GapBuffer) : List Nat := g.front ++ g.back

/-- Relocate the gap to byte offset `k`, shifting bytes across the
skipped span (the O(distance) case of the gap buffer). -/
def GapBuffer.moveGap (g : GapBuffer) (k : Nat) : GapBuffer :=
  ⟨g.text.take k, g.text.drop k⟩

/-- Insert bytes at the gap (the O(1)-amortised edit at the gap site). -/
def GapBuffer.insertAtGap (g : GapBuffer) (t : List Nat) : GapBuffer :=
  ⟨g.front ++ t, g.back⟩

/-- Whether byte offset `k` is a UTF-8 code-point boundary of `buf`:
the ends of the buffer, and any position whose byte is not a
continuation byte. -/
def utf8Boundary (buf : List Nat) (k : Nat) : Bool :=
  k == 0 || !isCont (buf.getD k 0)

/-- Modelled from the spec: the boundary snap of
`set_cursor_byte_offset` (implementation not under `src/`): walk
backwards over continuation bytes to the nearest code-point boundary at
or before `k`. -/
def snapBack (buf : List Nat) : Nat → Nat
  | 0 => 0
  | k + 1 => if isCont (buf.getD (k + 1) 0) then snapBack buf k else k + 1

/-- Cursor metrics the core computes by scanning the buffer: line index
and column in bytes (`CCursorMetrics.line_index`/`column_byte`; the
pixel fields of `CCursorMetrics` are produced by the external layout
collaborator, not the core, and are not modelled). -/
structure CursorMetricsM where
  lineIndex : Nat
  columnByte : Nat
deriving DecidableEq

/-- Modelled from the spec: `line_index`/`column_byte` are computed by
scanning the buffer for line-break bytes up to `cursor_byte_offset`. -/
def computeMetrics (buf : List Nat) (off : Nat) : CursorMetricsM :=
  let pre := buf.take off
  { lineIndex := pre.count 10
    columnByte := (pre.reverse.takeWhile (fun b => !(b == 10))).length }

mutual

/-- Descend from a block already known to span the cursor offset to the
smallest structural block spanning it. -/
def findActiveIn : Block → Nat → Block
  | .node k v i a ct sp cs, off =>
    match findActiveInL cs off with
    | some r => r
    | none => .node k v i a ct sp cs

/-- First structural child whose source span contains the offset,
resolved to its smallest spanning descendant. -/
def findActiveInL : List Block → Nat → Option Block
  | [], _ => none
  | c :: cs, off =>
    if isStructural (Block.kind c) && decide ((Block.src c).start ≤ off)
        && decide (off ≤ (Block.src c).start + (Block.src c).len) then
      some (findActiveIn c off)
    else findActiveInL cs off

end

/-- Modelled from the spec: active-block resolution (implementation not
under `src/`): map the cursor byte offset to the smallest structural
block of the tree whose source span contains it, or `none` (the
sentinel) when the cursor is at document top-level. -/
def activeBlockFor (root : Block) (off : Nat) : Option Block :=
  findActiveInL (Block.children root) off

/-- Modelled from the spec: the edit-session state behind
`CEditSession` (implementation not under `src/`): the gap-buffer text,
the cursor byte offset, the current tree, the resolved active block id
(`none` is the top-level sentinel) and the scanned cursor metrics. -/
structure EditSession where
  gap : GapBuffer
  cursorByteOffset : Nat
  root : Block
  activeBlockId : Option Nat
  metrics : CursorMetricsM

/-- Build the session state for a buffer and cursor offset: parse, then
resolve the active block and metrics from the parsed tree (this is the
re-parse/re-anchor step shared by session creation and every
mutation). -/
def mkSession (buf : List Nat) (cursor : Nat) : EditSession :=
  let root := parseFull buf
  { gap := ⟨buf.take cursor, buf.drop cursor⟩
    cursorByteOffset := cursor
    root := root
    activeBlockId := (activeBlockFor root cursor).map Block.ident
    metrics := computeMetrics buf cursor }

/-- Modelled from the spec: `handleTextInput` of `cranium.h`
(implementation not under `src/`).  Validates the inserted bytes as
UTF-8 and rejects them unchanged on failure; otherwise moves the gap to
the cursor, inserts, advances the cursor by the inserted byte length,
re-parses the full buffer and re-anchors the active block and metrics
at the post-edit cursor. -/
def handleTextInput (s : EditSession) (text : List Nat) : EditSession :=
  if validUtf8 text then
    let g := (s.gap.moveGap s.cursorByteOffset).insertAtGap text
    let cur := s.cursorByteOffset + text.length
    let buf := g.text
    let root := parseFull buf
    { gap := g
      cursorByteOffset := cur
      root := root
      activeBlockId := (activeBlockFor root cur).map Block.ident
      metrics := computeMetrics buf cur }
  else s

/-- Modelled from the spec: `setCursorByteOffset` of `cranium.h`
(implementation not under `src/`).  Clamps the requested offset into
`[0, buffer length]`, snaps it back to the nearest UTF-8 code-point
boundary at or before it, and recomputes the active block and cursor
metrics; never an error. -/
def setCursorByteOffset (s : EditSession) (off : Nat) : EditSession :=
  let buf := s.gap.text
  let c := snapBack buf (min off buf.length)
  { s with
    cursorByteOffset := c
    activeBlockId := (activeBlockFor s.root c).map Block.ident
    metrics := computeMetrics buf c }

/-- A document handle: the id of the arena the document owns
(model of `CDocument.arena_ptr`). -/
structure CDocumentM where
  arena : Nat

/-- A tree or text pointer derived from a document: every such pointer
lives in the document's arena. -/
structure DerivedPtr where
  arena : Nat

/-- The allocator state: which arenas are currently live. -/
structure DocStore where
  alive : Nat → Bool

/-- A derived pointer is valid exactly while its arena is live. -/
def ptrValid (st : DocStore) (p : DerivedPtr) : Bool := st.alive p.arena

/-- Modelled from the spec: `closeDocument` of `cranium.h`
(implementation not under `src/`).  A `NULL` handle is a no-op; a
handle frees the whole arena of the document in one step, invalidating
every pointer derived from it. -/
def closeDocument (doc : Option CDocumentM) (st : DocStore) : DocStore :=
  match doc with
  | none => st
  | some d => ⟨fun a => if a == d.arena then false else st.alive a⟩

/-- The `content_ptr` field of the `CBlock` view: the address (byte
offset) of the content slice, `none` modelling `NULL`. -/
def content_ptr (b : Block) : Option Nat := b.content.map Span.start

/-- The `content_len` field of the `CBlock` view (`0` if `NULL`). -/
def content_len (b : Block) : Nat :=
  match b.content with
  | none => 0
  | some sp => sp.len

/-- The `block_type_str_ptr` field of the `CBlock` view, `none`
modelling `NULL`. -/
def block_type_str_ptr (b : Block) : Option Nat := b.anno.map Span.start

/-- The `block_type_str_len` field of the `CBlock` view (`0` if
`NULL`). -/
def block_type_str_len (b : Block) : Nat :=
  match b.anno with
  | none => 0
  | some sp => sp.len

/-- The `children_ptr` field of the `CBlock` view: `none` models a
`NULL` child-array pointer, exposed when a block has no children. -/
def children_ptr (b : Block) : Option (List Block) :=
  if b.children.isEmpty then none else some b.children

/-- The `children_len` field of the `CBlock` view. -/
def children_len (b : Block) : Nat := b.children.length

/-- A span lies within the first `hi` bytes of the buffer. -/
def spanLe (hi : Nat) (sp : Span) : Bool := decide (sp.start + sp.len ≤ hi)

/-- An optional span lies within the first `hi` bytes (absent spans
trivially do). -/
def optSpanLe (hi : Nat) : Option Span → Bool
  | none => true
  | some sp => spanLe hi sp

/-- The documented range of `block_type_value` for one tag: heading
level 1–6 for Heading, any depth for quote/list tags, exactly `0`
otherwise. -/
def valueOkB : BlockTypeTag → Nat → Bool
  | .Heading, v => decide (1 ≤ v) && decide (v ≤ 6)
  | .BlockQuote, _ => true
  | .OrderedList, _ => true
  | .OrderedListItem, _ => true
  | .UnorderedList, _ => true
  | .UnorderedListItem, _ => true
  | k, v => (!(k == .Heading)) && v == 0

/-- The per-node invariant the parser maintains below the root: numeric
value in its documented range, all three spans inside the buffer, and
the tag is not Document (only the root is a Document). -/
def nodeOk (hi : Nat) (b : Block) : Bool :=
  valueOkB b.kind b.value && spanLe hi b.src && optSpanLe hi b.anno
    && optSpanLe hi b.content && !(b.kind == .Document)

mutual

/-- `nodeOk` holds at every node of the tree. -/
def treeOk (hi : Nat) : Block → Bool
  | .node k v i a ct sp cs => nodeOk hi (.node k v i a ct sp cs) && treeOkL hi cs

/-- `nodeOk` holds at every node of the forest. -/
def treeOkL (hi : Nat) : List Block → Bool
  | [] => true
  | b :: bs => treeOk hi b && treeOkL hi bs

end

theorem treeOkL_append (hi : Nat) (xs ys : List Block) :
    treeOkL hi (xs ++ ys) = (treeOkL hi xs && treeOkL hi ys) := by
  induction xs with
  | nil => simp [treeOkL]
  | cons x xs ih => simp [treeOkL, ih, Bool.and_assoc]

theorem countLeading_le (c : Nat) (l : List Nat) : countLeading c l ≤ l.length := by
  induction l with
  | nil => simp [countLeading]
  | cons b bs ih =>
    simp only [countLeading]
    split
    · simpa using ih
    · simp

theorem findRun_bound (c d : Nat) (l : List Nat) (j : Nat)
    (h : findRun c d l = some j) : j + d ≤ l.length := by
  induction l generalizing j with
  | nil => simp [findRun] at h
  | cons b bs ih =>
    simp only [findRun] at h
    split at h
    · rename_i hg
      cases h
      have h2 := (Bool.and_eq_true _ _).mp hg
      have h3 := of_decide_eq_true h2.2
      have := countLeading_le c (b :: bs)
      simpa using Nat.le_trans h3 this
    · rcases Option.map_eq_some'.mp h with ⟨j', hj', rfl⟩
      have := ih j' hj'
      simp only [List.length_cons]
      omega

theorem parseLinkBody_bound (t : List Nat) (j k : Nat)
    (h : parseLinkBody t = some (j, k)) :
    j + k + 3 ≤ t.length ∧ j = t.findIdx (fun b => b == 93)
      ∧ k = (t.drop (j + 2)).findIdx (fun b => b == 41) := by
  simp only [parseLinkBody] at h
  split at h
  · rename_i hg
    cases h
    have h1 := (Bool.and_eq_true _ _).mp hg
    have h2 := (Bool.and_eq_true _ _).mp h1.1
    have hj := of_decide_eq_true h2.1
    have hk := of_decide_eq_true h1.2
    refine ⟨?_, rfl, rfl⟩
    rw [List.length_drop] at hk
    omega
  · exact absurd h (by simp)

theorem mem_takeWhile_mem {α : Type} (p : α → Bool) (l : List α) (a : α)
    (h : a ∈ l.takeWhile p) : a ∈ l := by
  induction l with
  | nil => simp [List.takeWhile] at h
  | cons x xs ih =>
    simp only [List.takeWhile] at h
    split at h
    · rcases List.mem_cons.mp h with h | h
      · simp [h]
      · exact List.mem_cons_of_mem _ (ih h)
    · simp at h

theorem mem_drop_mem {α : Type} (n : Nat) (l : List α) (a : α)
    (h : a ∈ l.drop n) : a ∈ l := by
  induction l generalizing n with
  | nil => simp at h
  | cons x xs ih =>
    cases n with
    | zero => simpa using h
    | succ m => exact List.mem_cons_of_mem _ (ih m (by simpa using h))

theorem mem_take_mem {α : Type} (n : Nat) (l : List α) (a : α)
    (h : a ∈ l.take n) : a ∈ l := by
  induction l generalizing n with
  | nil => simp at h
  | cons x xs ih =>
    cases n with
    | zero => simp at h
    | succ m =>
      rcases List.mem_cons.mp (by simpa using h) with h | h
      · simp [h]
      · exact List.mem_cons_of_mem _ (ih m h)

theorem treeOk_node (hi : Nat) (k : BlockTypeTag) (v n : Nat) (a ct : Option Span)
    (sp : Span) (cs : List Block)
    (hv : valueOkB k v = true) (hsp : sp.start + sp.len ≤ hi)
    (ha : optSpanLe hi a = true) (hct : optSpanLe hi ct = true)
    (hk : (k == BlockTypeTag.Document) = false) (hcs : treeOkL hi cs = true) :
    treeOk hi (.node k v n a ct sp cs) = true := by
  simp [treeOk, nodeOk, Block.kind, Block.value, Block.anno, Block.content, Block.src,
    spanLe, hv, hsp, ha, hct, hk, hcs]

theorem treeOk_mkRaw (hi base len : Nat) (h : base + len ≤ hi) :
    treeOk hi (mkRaw base len) = true := by
  simp [mkRaw]
  exact treeOk_node hi _ _ _ _ _ _ _ (by simp [valueOkB]) (by simpa using h)
    (by simp [optSpanLe]) (by simpa [optSpanLe, spanLe] using h) (by simp) (by simp [treeOkL])

theorem emphKind_ok (d : Nat) :
    valueOkB (emphKind d) 0 = true ∧ (emphKind d == BlockTypeTag.Document) = false := by
  rcases d with _ | _ | _ | n <;> simp [emphKind, valueOkB]

theorem inlineParseF_ok (fuel : Nat) : ∀ base s hi, base + s.length ≤ hi →
    treeOkL hi (inlineParseF fuel base s) = true := by
  induction fuel with
  | zero =>
    intro base s hi h
    simp only [inlineParseF]
    split
    · simp [treeOkL]
    · simp [treeOkL, treeOk_mkRaw hi base s.length h]
  | succ fuel ih =>
    intro base s hi h
    simp only [inlineParseF]
    set i := List.findIdx isSpecial s with hidef
    set u := List.drop i s with hudef
    set b0 := s.getD i 0 with hb0def
    split
    case isFalse hge =>
      split
      · simp [treeOkL]
      · simp [treeOkL, treeOk_mkRaw hi base s.length h]
    case isTrue hlt =>
      have hpre : treeOkL hi
          (if (i == 0) = true then ([] : List Block) else [mkRaw base i]) = true := by
        split
        · simp [treeOkL]
        · simp [treeOkL]
          exact treeOk_mkRaw hi base i (by omega)
      set r := countLeading b0 u with hrdef
      set d := r ⊓ 3 with hddef
      have hrle : r ≤ s.length - i := by
        have h2 := countLeading_le b0 u
        rw [hudef, List.length_drop] at h2
        exact h2
      have hdr : d ≤ r := Nat.min_le_left _ _
      split
      case isTrue hem =>
        split
        case h_1 j heq =>
          have hjd : j + d ≤ s.length - i - d := by
            have h2 := findRun_bound b0 d (List.drop d u) j heq
            rw [List.length_drop, hudef, List.length_drop] at h2
            omega
          rw [treeOkL_append, Bool.and_eq_true]
          refine ⟨hpre, ?_⟩
          simp only [treeOkL, Bool.and_eq_true]
          refine ⟨?_, ?_⟩
          · apply treeOk_node
            · exact (emphKind_ok d).1
            · show base + i + (d + j + d) ≤ hi
              omega
            · simp [optSpanLe]
            · simp [optSpanLe]
            · exact (emphKind_ok d).2
            · apply ih
              rw [List.length_take, List.length_drop, hudef, List.length_drop]
              omega
          · apply ih
            rw [List.length_drop]
            omega
        case h_2 heq =>
          rw [treeOkL_append, Bool.and_eq_true]
          refine ⟨hpre, ?_⟩
          simp only [treeOkL, Bool.and_eq_true]
          refine ⟨treeOk_mkRaw hi (base + i) d (by omega), ?_⟩
          apply ih
          rw [List.length_drop]
          omega
      case isFalse hnem =>
        split
        case isTrue hlk =>
          split
          case h_1 jk j k heq =>
            have hjk := (parseLinkBody_bound (List.drop 1 u) j k heq).1
            rw [List.length_drop, hudef, List.length_drop] at hjk
            rw [treeOkL_append, Bool.and_eq_true]
            refine ⟨hpre, ?_⟩
            simp only [treeOkL, Bool.and_eq_true]
            refine ⟨?_, ?_⟩
            · apply treeOk_node
              · simp [valueOkB]
              · show base + i + (j + k + 4) ≤ hi
                omega
              · simp [optSpanLe, spanLe]
                omega
              · simp [optSpanLe]
              · simp
              · apply ih
                rw [List.length_take, List.length_drop, hudef, List.length_drop]
                omega
            · apply ih
              rw [List.length_drop]
              omega
          case h_2 heq =>
            rw [treeOkL_append, Bool.and_eq_true]
            refine ⟨hpre, ?_⟩
            simp only [treeOkL, Bool.and_eq_true]
            refine ⟨treeOk_mkRaw hi (base + i) 1 (by omega), ?_⟩
            apply ih
            rw [List.length_drop]
            omega
        case isFalse hnlk =>
          split
          case isTrue hbang =>
            split
            case h_1 jk j k heq =>
              have hjk := (parseLinkBody_bound (List.drop 2 u) j k heq).1
              rw [List.length_drop, hudef, List.length_drop] at hjk
              rw [treeOkL_append, Bool.and_eq_true]
              refine ⟨hpre, ?_⟩
              simp only [treeOkL, Bool.and_eq_true]
              refine ⟨?_, ?_⟩
              · apply treeOk_node
                · simp [valueOkB]
                · show base + i + (j + k + 5) ≤ hi
                  omega
                · simp [optSpanLe, spanLe]
                  omega
                · simp [optSpanLe]
                · simp
                · apply ih
                  rw [List.length_take, List.length_drop, hudef, List.length_drop]
                  omega
              · apply ih
                rw [List.length_drop]
                omega
            case h_2 heq =>
              rw [treeOkL_append, Bool.and_eq_true]
              refine ⟨hpre, ?_⟩
              simp only [treeOkL, Bool.and_eq_true]
              refine ⟨treeOk_mkRaw hi (base + i) 1 (by omega), ?_⟩
              apply ih
              rw [List.length_drop]
              omega
          case isFalse hnbang =>
            rw [treeOkL_append, Bool.and_eq_true]
            refine ⟨hpre, ?_⟩
            simp only [treeOkL, Bool.and_eq_true]
            refine ⟨treeOk_mkRaw hi (base + i) 1 (by omega), ?_⟩
            apply ih
            rw [List.length_drop]
            omega

theorem segAt_le (buf : List Nat) (start n : Nat) (h : start ≤ buf.length) :
    start + (segAt buf start n).length ≤ buf.length := by
  simp only [segAt, List.length_take, List.length_drop]
  omega

theorem inlineAt_ok (buf : List Nat) (start n : Nat) (h : start ≤ buf.length) :
    treeOkL buf.length (inlineAt buf start n) = true := by
  exact inlineParseF_ok _ start (segAt buf start n) buf.length (segAt_le buf start n h)

/-- A line lies inside the first `n` bytes of the buffer. -/
def lineOk (n : Nat) (L : Line) : Prop := L.start + L.bytes.length ≤ n

theorem takeLine_split (bs : List Nat) :
    (takeLine bs).1.length + (takeLine bs).2.length ≤ bs.length ∧
      ((takeLine bs).2 = [] ∨
        (takeLine bs).1.length + 1 + (takeLine bs).2.length = bs.length) := by
  induction bs with
  | nil => simp [takeLine]
  | cons b t ih =>
    simp only [takeLine]
    split
    · exact ⟨by simp, Or.inr (by simp [Nat.add_comm])⟩
    · rcases ih with ⟨h1, h2⟩
      constructor
      · simp only [List.length_cons]
        omega
      · rcases h2 with h2 | h2
        · exact Or.inl h2
        · refine Or.inr ?_
          simp only [List.length_cons]
          omega

theorem splitLinesF_nil (fuel pos : Nat) : splitLinesF fuel pos [] = [] := by
  cases fuel <;> rfl

theorem splitLinesF_ok (fuel : Nat) : ∀ pos bs (L : Line), L ∈ splitLinesF fuel pos bs →
    L.start + L.bytes.length ≤ pos + bs.length := by
  induction fuel with
  | zero =>
    intro pos bs L hL
    simp [splitLinesF] at hL
  | succ fuel ih =>
    intro pos bs L hL
    cases bs with
    | nil => simp [splitLinesF] at hL
    | cons b t =>
      rw [splitLinesF] at hL
      rcases List.mem_cons.mp hL with rfl | hL2
      · have h1 := (takeLine_split (b :: t)).1
        show pos + (takeLine (b :: t)).1.length ≤ pos + (b :: t).length
        simp only [List.length_cons] at h1 ⊢
        omega
      · rcases (takeLine_split (b :: t)).2 with h2 | h2
        · rw [h2, splitLinesF_nil] at hL2
          simp at hL2
        · have hrec := ih _ _ L hL2
          simp only [List.length_cons] at h2 ⊢
          omega

theorem splitLinesFrom_ok (bs : List Nat) (pos : Nat) (L : Line)
    (hL : L ∈ splitLinesFrom pos bs) :
    L.start + L.bytes.length ≤ pos + bs.length :=
  splitLinesF_ok _ pos bs L hL

theorem classify_heading {bs : List Nat} {h : Nat} (hc : classify bs = .heading h) :
    1 ≤ h ∧ h ≤ 6 ∧ h < bs.length := by
  simp only [classify] at hc
  split at hc
  · simp at hc
  split at hc
  · simp at hc
  split at hc
  case isTrue hg =>
    simp only [LineKind.heading.injEq] at hc
    subst hc
    simp only [Bool.and_eq_true, decide_eq_true_eq, beq_iff_eq] at hg
    obtain ⟨⟨h1, h2⟩, h3⟩ := hg
    refine ⟨h1, h2, ?_⟩
    by_contra hlen
    push_neg at hlen
    rw [List.getD_eq_default _ _ (by omega)] at h3
    exact absurd h3 (by decide)
  case isFalse =>
    split at hc
    · simp at hc
    split at hc
    · simp at hc
    split at hc <;> simp at hc

theorem classify_quote {bs : List Nat} (hc : classify bs = .quote) :
    bs.headD 0 = 62 ∧ 1 ≤ bs.length := by
  simp only [classify] at hc
  split at hc
  · simp at hc
  split at hc
  · simp at hc
  split at hc
  · simp at hc
  split at hc
  case isTrue hg =>
    have h62 : bs.headD 0 = 62 := by simpa using hg
    refine ⟨h62, ?_⟩
    cases bs with
    | nil => simp at h62
    | cons b t => simp
  case isFalse =>
    split at hc
    · simp at hc
    split at hc <;> simp at hc

theorem classify_unordered {bs : List Nat} (hc : classify bs = .unordered) :
    2 ≤ bs.length := by
  simp only [classify] at hc
  split at hc
  · simp at hc
  split at hc
  · simp at hc
  split at hc
  · simp at hc
  split at hc
  · simp at hc
  split at hc
  case isTrue hg =>
    simp only [Bool.and_eq_true, beq_iff_eq] at hg
    have h32 := hg.2
    by_contra hlen
    push_neg at hlen
    rw [List.getD_eq_default _ _ (by omega)] at h32
    exact absurd h32 (by decide)
  case isFalse =>
    split at hc <;> simp at hc

theorem classify_ordered {bs : List Nat} {d : Nat} (hc : classify bs = .ordered d) :
    d = countDigits bs ∧ 1 ≤ d ∧ d < bs.length := by
  simp only [classify] at hc
  split at hc
  · simp at hc
  split at hc
  · simp at hc
  split at hc
  · simp at hc
  split at hc
  · simp at hc
  split at hc
  · simp at hc
  split at hc
  case isTrue hg =>
    simp only [LineKind.ordered.injEq] at hc
    subst hc
    simp only [Bool.and_eq_true, Bool.or_eq_true, decide_eq_true_eq, beq_iff_eq] at hg
    refine ⟨rfl, hg.1, ?_⟩
    by_contra hlen
    push_neg at hlen
    rcases hg.2 with h46 | h41
    · rw [List.getD_eq_default _ _ (by omega)] at h46
      exact absurd h46 (by decide)
    · rw [List.getD_eq_default _ _ (by omega)] at h41
      exact absurd h41 (by decide)
  case isFalse => simp at hc

theorem isOrderedLineK_inv {L : Line} (h : isOrderedLineK L = true) :
    classify L.bytes = .ordered (countDigits L.bytes) := by
  rw [isOrderedLineK] at h
  split at h
  · rename_i d hd
    have := (classify_ordered hd).1
    rw [hd, this]
  · simp at h

theorem stripQuote_ok (n : Nat) (L : Line) (hq : classify L.bytes = .quote)
    (h : lineOk n L) : lineOk n (stripQuote L) := by
  obtain ⟨h62, h1⟩ := classify_quote hq
  rw [lineOk] at h ⊢
  rw [stripQuote]
  split
  case isTrue hsp =>
    have h2 : 2 ≤ L.bytes.length := by
      by_contra hlen
      push_neg at hlen
      have : L.bytes.drop 1 = [] := by
        apply List.eq_nil_of_length_eq_zero
        rw [List.length_drop]
        omega
      rw [this] at hsp
      simp at hsp
    simp only [List.length_drop]
    omega
  case isFalse =>
    simp only [List.length_drop]
    omega

theorem runEnd_le (n : Nat) (ls : List Line) (L : Line)
    (hall : ∀ M ∈ L :: ls, lineOk n M) : runEnd L ls ≤ n := by
  induction ls generalizing L with
  | nil => simpa [runEnd, lineOk] using hall L (by simp)
  | cons M ms ih =>
    rw [runEnd]
    exact ih M (fun K hK => hall K (by
      rcases List.mem_cons.mp hK with rfl | hK <;> simp [hK]))

theorem treeOkL_of_all (hi : Nat) (l : List Block)
    (h : ∀ b ∈ l, treeOk hi b = true) : treeOkL hi l = true := by
  induction l with
  | nil => simp [treeOkL]
  | cons b bs ih =>
    rw [treeOkL, Bool.and_eq_true]
    exact ⟨h b (by simp), ih (fun x hx => h x (by simp [hx]))⟩

theorem mkUnorderedItem_ok (buf : List Nat) (depth : Nat) (M : Line)
    (hM : classify M.bytes = .unordered) (hok : lineOk buf.length M) :
    treeOk buf.length (mkUnorderedItem buf depth M) = true := by
  have h2 := classify_unordered hM
  rw [lineOk] at hok
  rw [mkUnorderedItem]
  apply treeOk_node
  · simp [valueOkB]
  · show M.start + M.bytes.length ≤ buf.length
    exact hok
  · simp [optSpanLe]
  · simp [optSpanLe, spanLe]
    omega
  · simp
  · exact inlineAt_ok buf _ _ (by omega)

theorem mkOrderedItem_ok (buf : List Nat) (depth : Nat) (M : Line)
    (hM : classify M.bytes = .ordered (countDigits M.bytes)) (hok : lineOk buf.length M) :
    treeOk buf.length (mkOrderedItem buf depth (countDigits M.bytes) M) = true := by
  obtain ⟨-, hd1, hdlt⟩ := classify_ordered hM
  rw [lineOk] at hok
  have hm : orderedSkip (countDigits M.bytes) M.bytes ≤ M.bytes.length := by
    rw [orderedSkip]
    split
    case isTrue hsp =>
      have : countDigits M.bytes + 1 < M.bytes.length := by
        by_contra hlen
        push_neg at hlen
        rw [List.getD_eq_default _ _ (by omega)] at hsp
        simp at hsp
      omega
    case isFalse => omega
  rw [mkOrderedItem]
  apply treeOk_node
  · simp [valueOkB]
  · show M.start + M.bytes.length ≤ buf.length
    exact hok
  · simp [optSpanLe]
  · simp [optSpanLe, spanLe]
    omega
  · simp
  · exact inlineAt_ok buf _ _ (by omega)

theorem parseBlocks_ok (buf : List Nat) (fuel : Nat) :
    ∀ depth lines, (∀ L ∈ lines, lineOk buf.length L) →
      treeOkL buf.length (parseBlocks buf fuel depth lines) = true := by
  induction fuel with
  | zero =>
    intro depth lines hall
    simp [parseBlocks, treeOkL]
  | succ fuel ih =>
    intro depth lines hall
    cases lines with
    | nil => simp [parseBlocks, treeOkL]
    | cons L rest =>
      have hrest : ∀ M ∈ rest, lineOk buf.length M :=
        fun M hM => hall M (by simp [hM])
      have hL : lineOk buf.length L := hall L (by simp)
      simp only [parseBlocks]
      split
      case h_1 heq =>
        exact ih depth rest hrest
      case h_2 h heq =>
        obtain ⟨h1, h2, h3⟩ := classify_heading heq
        rw [lineOk] at hL
        rw [treeOkL, Bool.and_eq_true]
        refine ⟨?_, ih depth rest hrest⟩
        apply treeOk_node
        · simp [valueOkB]
          omega
        · show L.start + L.bytes.length ≤ buf.length
          exact hL
        · simp [optSpanLe]
        · simp [optSpanLe, spanLe]
          omega
        · simp
        · simp [treeOkL]
      case h_3 heq =>
        rw [treeOkL, Bool.and_eq_true]
        constructor
        · have hinner : ∀ M ∈ rest.takeWhile (fun M => !isFenceLine M), lineOk buf.length M :=
            fun M hM => hrest M (mem_takeWhile_mem _ _ _ hM)
          rw [lineOk] at hL
          apply treeOk_node
          · simp [valueOkB]
          · show L.start + (runEnd L (rest.takeWhile (fun M => !isFenceLine M)
                ++ (rest.drop (rest.takeWhile (fun M => !isFenceLine M)).length).take 1) - L.start) ≤ buf.length
            have hre : runEnd L (rest.takeWhile (fun M => !isFenceLine M)
                ++ (rest.drop (rest.takeWhile (fun M => !isFenceLine M)).length).take 1) ≤ buf.length := by
              apply runEnd_le
              intro M hM
              rcases List.mem_cons.mp hM with rfl | hM
              · rw [lineOk]; exact hL
              · rcases List.mem_append.mp hM with hM | hM
                · exact hinner M hM
                · exact hrest M (mem_drop_mem _ _ _ (mem_take_mem _ _ _ hM))
            omega
          · simp [optSpanLe]
          · match hin : rest.takeWhile (fun M => !isFenceLine M) with
            | [] => simp [optSpanLe]
            | Li :: more =>
              simp only [optSpanLe, spanLe, decide_eq_true_eq]
              have hLi : lineOk buf.length Li := hinner Li (by rw [hin]; simp)
              have hre : runEnd Li more ≤ buf.length := by
                apply runEnd_le
                intro M hM
                exact hinner M (by rw [hin]; exact hM)
              rw [lineOk] at hLi
              omega
          · simp
          · simp [treeOkL]
        · exact ih depth _ (fun M hM => hrest M (mem_drop_mem _ _ _ hM))
      case h_4 heq =>
        rw [treeOkL, Bool.and_eq_true]
        constructor
        · have hrun : ∀ M ∈ L :: rest.takeWhile isQuoteLine, classify M.bytes = .quote ∧ lineOk buf.length M := by
            intro M hM
            rcases List.mem_cons.mp hM with rfl | hM
            · exact ⟨heq, hL⟩
            · refine ⟨?_, hrest M (mem_takeWhile_mem _ _ _ hM)⟩
              have := List.mem_takeWhile_imp hM
              rwa [isQuoteLine, beq_iff_eq] at this
          apply treeOk_node
          · simp [valueOkB]
          · show L.start + (runEnd L (rest.takeWhile isQuoteLine) - L.start) ≤ buf.length
            have hre : runEnd L (rest.takeWhile isQuoteLine) ≤ buf.length :=
              runEnd_le _ _ _ (fun M hM => (hrun M hM).2)
            rw [lineOk] at hL
            omega
          · simp [optSpanLe]
          · simp [optSpanLe]
          · simp
          · apply ih
            intro M hM
            rcases List.mem_map.mp hM with ⟨K, hK, rfl⟩
            exact stripQuote_ok _ _ (hrun K hK).1 (hrun K hK).2
        · exact ih depth _ (fun M hM => hrest M (mem_drop_mem _ _ _ hM))
      case h_5 heq =>
        rw [treeOkL, Bool.and_eq_true]
        constructor
        · have hrun : ∀ M ∈ L :: rest.takeWhile isUnorderedLine,
              classify M.bytes = .unordered ∧ lineOk buf.length M := by
            intro M hM
            rcases List.mem_cons.mp hM with rfl | hM
            · exact ⟨heq, hL⟩
            · refine ⟨?_, hrest M (mem_takeWhile_mem _ _ _ hM)⟩
              have := List.mem_takeWhile_imp hM
              rwa [isUnorderedLine, beq_iff_eq] at this
          apply treeOk_node
          · simp [valueOkB]
          · show L.start + (runEnd L (rest.takeWhile isUnorderedLine) - L.start) ≤ buf.length
            have hre : runEnd L (rest.takeWhile isUnorderedLine) ≤ buf.length :=
              runEnd_le _ _ _ (fun M hM => (hrun M hM).2)
            rw [lineOk] at hL
            omega
          · simp [optSpanLe]
          · simp [optSpanLe]
          · simp
          · apply treeOkL_of_all
            intro b hb
            rcases List.mem_map.mp hb with ⟨K, hK, rfl⟩
            exact mkUnorderedItem_ok buf depth K (hrun K hK).1 (hrun K hK).2
        · exact ih depth _ (fun M hM => hrest M (mem_drop_mem _ _ _ hM))
      case h_6 d heq =>
        rw [treeOkL, Bool.and_eq_true]
        constructor
        · have hrun : ∀ M ∈ rest.takeWhile isOrderedLineK,
              classify M.bytes = .ordered (countDigits M.bytes) ∧ lineOk buf.length M := by
            intro M hM
            refine ⟨isOrderedLineK_inv (List.mem_takeWhile_imp hM),
              hrest M (mem_takeWhile_mem _ _ _ hM)⟩
          apply treeOk_node
          · simp [valueOkB]
          · show L.start + (runEnd L (rest.takeWhile isOrderedLineK) - L.start) ≤ buf.length
            have hre : runEnd L (rest.takeWhile isOrderedLineK) ≤ buf.length := by
              apply runEnd_le
              intro M hM
              rcases List.mem_cons.mp hM with rfl | hM
              · exact hL
              · exact (hrun M hM).2
            rw [lineOk] at hL
            omega
          · simp [optSpanLe]
          · simp [optSpanLe]
          · simp
          · rw [treeOkL, Bool.and_eq_true]
            constructor
            · have hd : d = countDigits L.bytes := (classify_ordered heq).1
              rw [hd]
              exact mkOrderedItem_ok buf depth L (hd ▸ heq) hL
            · apply treeOkL_of_all
              intro b hb
              rcases List.mem_map.mp hb with ⟨K, hK, rfl⟩
              exact mkOrderedItem_ok buf depth K (hrun K hK).1 (hrun K hK).2
        · exact ih depth _ (fun M hM => hrest M (mem_drop_mem _ _ _ hM))
      case h_7 heq =>
        rw [treeOkL, Bool.and_eq_true]
        constructor
        · have hre : runEnd L (rest.takeWhile isTextLine) ≤ buf.length := by
            apply runEnd_le
            intro M hM
            rcases List.mem_cons.mp hM with rfl | hM
            · exact hL
            · exact hrest M (mem_takeWhile_mem _ _ _ hM)
          rw [lineOk] at hL
          apply treeOk_node
          · simp [valueOkB]
          · show L.start + (runEnd L (rest.takeWhile isTextLine) - L.start) ≤ buf.length
            omega
          · simp [optSpanLe]
          · simp [optSpanLe]
          · simp
          · exact inlineAt_ok buf _ _ (by omega)
        · exact ih depth _ (fun M hM => hrest M (mem_drop_mem _ _ _ hM))

mutual

theorem assignIds_treeOk (hi c : Nat) (b : Block) :
    treeOk hi (assignIds c b).1 = treeOk hi b := by
  cases b with
  | node k v n a ct sp cs =>
    simp only [assignIds, treeOk]
    rw [assignIdsL_treeOk]
    simp [nodeOk, Block.kind, Block.value, Block.anno, Block.content, Block.src]

theorem assignIdsL_treeOk (hi c : Nat) (bs : List Block) :
    treeOkL hi (assignIdsL c bs).1 = treeOkL hi bs := by
  cases bs with
  | nil => rfl
  | cons b bs =>
    simp only [assignIdsL, treeOkL]
    rw [assignIds_treeOk, assignIdsL_treeOk]

end

mutual

theorem assignIds_preIds (c : Nat) (b : Block) :
    preIds (assignIds c b).1 = List.range' c (bsize b) ∧ (assignIds c b).2 = c + bsize b := by
  cases b with
  | node k v n a ct sp cs =>
    obtain ⟨h1, h2⟩ := assignIdsL_preIds (c + 1) cs
    constructor
    · simp only [assignIds, preIds, bsize, h1]
      rw [Nat.add_comm 1 (bsizeL cs), List.range'_succ]
    · simp only [assignIds, bsize, h2]
      omega

theorem assignIdsL_preIds (c : Nat) (bs : List Block) :
    preIdsL (assignIdsL c bs).1 = List.range' c (bsizeL bs) ∧ (assignIdsL c bs).2 = c + bsizeL bs := by
  cases bs with
  | nil => simp [assignIdsL, preIdsL, bsizeL]
  | cons b bs =>
    obtain ⟨h1, h2⟩ := assignIds_preIds c b
    obtain ⟨h3, h4⟩ := assignIdsL_preIds (assignIds c b).2 bs
    rw [h2] at h3 h4
    constructor
    · simp only [assignIdsL, preIdsL, h1, h2, h3, bsizeL]
      have hap := List.range'_append c (bsize b) (bsizeL bs) 1
      simp only [Nat.one_mul] at hap
      rw [Nat.add_comm (bsize b) (bsizeL bs)]
      exact hap
    · simp only [assignIdsL, h2, h4, bsizeL]
      omega

end

mutual

theorem treeOk_all (hi : Nat) (b : Block) (h : treeOk hi b = true) :
    ∀ x ∈ allBlocks b, nodeOk hi x = true := by
  cases b with
  | node k v n a ct sp cs =>
    intro x hx
    rw [treeOk, Bool.and_eq_true] at h
    rw [allBlocks] at hx
    rcases List.mem_cons.mp hx with rfl | hx
    · exact h.1
    · exact treeOkL_all hi cs h.2 x hx

theorem treeOkL_all (hi : Nat) (bs : List Block) (h : treeOkL hi bs = true) :
    ∀ x ∈ allBlocksL bs, nodeOk hi x = true := by
  cases bs with
  | nil => intro x hx; rw [allBlocksL] at hx; simp at hx
  | cons b bs =>
    intro x hx
    rw [treeOkL, Bool.and_eq_true] at h
    rw [allBlocksL] at hx
    rcases List.mem_append.mp hx with hx | hx
    · exact treeOk_all hi b h.1 x hx
    · exact treeOkL_all hi bs h.2 x hx

end

theorem self_mem_allBlocks (b : Block) : b ∈ allBlocks b := by
  cases b with
  | node k v n a ct sp cs =>
    rw [allBlocks]
    exact List.mem_cons_self _ _

theorem parseFull_eq (buf : List Nat) :
    parseFull buf = Block.node .Document 0 0 none none ⟨0, buf.length⟩
      (assignIdsL 1 (parseBlocks buf (buf.length + (splitLinesFrom 0 buf).length + 1) 0
        (splitLinesFrom 0 buf))).1 := by
  simp only [parseFull, parseDoc, assignIds]

theorem parseFull_children_ok (buf : List Nat) :
    treeOkL buf.length (Block.children (parseFull buf)) = true := by
  rw [parseFull_eq, Block.children, assignIdsL_treeOk]
  apply parseBlocks_ok
  intro L hL
  have := splitLinesFrom_ok buf 0 L hL
  rw [lineOk]
  omega

theorem parseFull_node_ok (buf : List Nat) (b : Block)
    (hb : b ∈ allBlocks (parseFull buf)) :
    b = parseFull buf ∨ nodeOk buf.length b = true := by
  rw [parseFull_eq] at hb
  rw [allBlocks] at hb
  rcases List.mem_cons.mp hb with rfl | hb
  · exact Or.inl (parseFull_eq buf).symm
  · right
    refine treeOkL_all buf.length _ ?_ b hb
    have := parseFull_children_ok buf
    rwa [parseFull_eq, Block.children] at this

mutual

theorem assignIds_bsize (c : Nat) (b : Block) : bsize (assignIds c b).1 = bsize b := by
  cases b with
  | node k v n a ct sp cs =>
    simp only [assignIds, bsize]
    rw [assignIdsL_bsize]

theorem assignIdsL_bsize (c : Nat) (bs : List Block) :
    bsizeL (assignIdsL c bs).1 = bsizeL bs := by
  cases bs with
  | nil => rfl
  | cons b bs =>
    simp only [assignIdsL, bsizeL]
    rw [assignIds_bsize, assignIdsL_bsize]

end

mutual

/-- Boolean structural equality of blocks. -/
def beqB : Block → Block → Bool
  | .node k1 v1 i1 a1 c1 s1 cs1, .node k2 v2 i2 a2 c2 s2 cs2 =>
    k1 == k2 && v1 == v2 && i1 == i2 && a1 == a2 && c1 == c2 && s1 == s2 && beqL cs1 cs2

/-- Boolean structural equality of forests. -/
def beqL : List Block → List Block → Bool
  | [], [] => true
  | b :: bs, c :: cs => beqB b c && beqL bs cs
  | _, _ => false

end

mutual

theorem beqB_eq (a b : Block) : beqB a b = true ↔ a = b := by
  cases a with
  | node k1 v1 i1 a1 c1 s1 cs1 =>
    cases b with
    | node k2 v2 i2 a2 c2 s2 cs2 =>
      rw [beqB]
      simp only [Bool.and_eq_true, beq_iff_eq, Block.node.injEq]
      rw [beqL_eq cs1 cs2]
      tauto

theorem beqL_eq (as bs : List Block) : beqL as bs = true ↔ as = bs := by
  cases as with
  | nil =>
    cases bs with
    | nil => simp [beqL]
    | cons c cs => simp [beqL]
  | cons a as =>
    cases bs with
    | nil => simp [beqL]
    | cons c cs =>
      rw [beqL]
      simp only [Bool.and_eq_true, List.cons.injEq]
      rw [beqB_eq a c, beqL_eq as cs]

end

instance : DecidableEq Block := fun a b => decidable_of_iff _ (beqB_eq a b)

theorem nodeOk_parts (hi : Nat) (b : Block) (h : nodeOk hi b = true) :
    valueOkB b.kind b.value = true ∧ b.src.start + b.src.len ≤ hi ∧
    optSpanLe hi b.anno = true ∧ optSpanLe hi b.content = true ∧ b.kind ≠ .Document := by
  rw [nodeOk] at h
  simp only [Bool.and_eq_true, spanLe, decide_eq_true_eq, Bool.not_eq_true',
    beq_eq_false_iff_ne] at h
  tauto

/-- C1: parsing is total — `parseFull` is a total function of the byte
buffer, its result is rooted at a Document node, and no other Document
node occurs anywhere in the produced tree; arbitrary (even malformed)
byte input yields a tree, never a failure. -/
theorem parse_total_document_rooted (buf : List Nat) :
    (parseFull buf).kind = .Document ∧
    ∀ b ∈ allBlocksL (parseFull buf).children, b.kind ≠ .Document := by
  constructor
  · rw [parseFull_eq, Block.kind]
  · intro b hb
    exact (nodeOk_parts buf.length b
      (treeOkL_all buf.length _ (parseFull_children_ok buf) b hb)).2.2.2.2

/-- Witness for C1 at the one-byte buffer `"a"`: the root parses to a
Document and the Paragraph block below it is not a Document. -/
theorem parse_total_document_rooted_witness :
    (parseFull [97]).kind = .Document ∧
    (Block.node .Paragraph 0 1 none none ⟨0, 1⟩
      [Block.node .RawStr 0 2 none (some ⟨0, 1⟩) ⟨0, 1⟩ []]).kind ≠ .Document :=
  ⟨(parse_total_document_rooted [97]).1,
    (parse_total_document_rooted [97]).2 _ (by decide)⟩

/-- C2: id determinism — parsing a buffer twice from scratch yields
identical pre-order `(kind, numeric_value, id)` sequences, and the ids
assigned by the per-document counter are exactly `0, 1, 2, …` in
pre-order (a node before its children, children in document order). -/
theorem parse_ids_deterministic_preorder (buf : List Nat) :
    preTriples (parseFull buf) = preTriples (parseFull buf) ∧
    preIds (parseFull buf) = List.range (bsize (parseFull buf)) := by
  refine ⟨rfl, ?_⟩
  rw [parseFull, (assignIds_preIds 0 (parseDoc buf)).1, assignIds_bsize,
    List.range_eq_range']

/-- C7: numeric-value ranges — in every parsed tree, a Heading's value
is a level in `[1, 6]`; quote/list blocks carry a nesting depth (a
natural number, hence `≥ 0`); every other variant carries exactly 0. -/
theorem block_value_ranges (buf : List Nat) (b : Block)
    (hb : b ∈ allBlocks (parseFull buf)) :
    (b.kind = .Heading → 1 ≤ b.value ∧ b.value ≤ 6) ∧
    (b.kind = .BlockQuote ∨ b.kind = .OrderedList ∨ b.kind = .OrderedListItem ∨
      b.kind = .UnorderedList ∨ b.kind = .UnorderedListItem → 0 ≤ b.value) ∧
    (¬(b.kind = .Heading ∨ b.kind = .BlockQuote ∨ b.kind = .OrderedList ∨
      b.kind = .OrderedListItem ∨ b.kind = .UnorderedList ∨
      b.kind = .UnorderedListItem) → b.value = 0) := by
  rcases parseFull_node_ok buf b hb with rfl | hok
  · rw [parseFull_eq]
    refine ⟨?_, ?_, ?_⟩ <;> simp [Block.kind, Block.value]
  · have hv := (nodeOk_parts _ _ hok).1
    refine ⟨?_, fun _ => Nat.zero_le _, ?_⟩
    · intro hk
      rw [hk] at hv
      simpa [valueOkB] using hv
    · intro h
      push_neg at h
      obtain ⟨h1, h2, h3, h4, h5, h6⟩ := h
      cases hk : b.kind
      case Heading => exact absurd hk h1
      case BlockQuote => exact absurd hk h2
      case OrderedList => exact absurd hk h3
      case OrderedListItem => exact absurd hk h4
      case UnorderedList => exact absurd hk h5
      case UnorderedListItem => exact absurd hk h6
      all_goals (rw [hk] at hv; simpa [valueOkB] using hv)

/-- Witness for C7 at the buffer `"# T"`: the Heading block the parser
produces has level 1, inside `[1, 6]`. -/
theorem block_value_ranges_witness :
    1 ≤ (Block.node .Heading 1 1 none (some ⟨2, 1⟩) ⟨0, 3⟩ []).value ∧
    (Block.node .Heading 1 1 none (some ⟨2, 1⟩) ⟨0, 3⟩ []).value ≤ 6 :=
  (block_value_ranges [35, 32, 84] _ (by decide)).1 rfl

/-- C8: slice validity — every block of a freshly parsed tree has its
source span inside the buffer, and its content and annotation slices
(when present) designate genuine substrings of the original buffer:
the slice bounds lie inside the buffer and reading the slice from the
buffer yields exactly `len` bytes. -/
theorem block_slices_in_buffer (buf : List Nat) (b : Block)
    (hb : b ∈ allBlocks (parseFull buf)) :
    b.src.start + b.src.len ≤ buf.length ∧
    (∀ sp, b.content = some sp → sp.start + sp.len ≤ buf.length ∧
      (sliceBytes buf sp).length = sp.len) ∧
    (∀ sp, b.anno = some sp → sp.start + sp.len ≤ buf.length ∧
      (sliceBytes buf sp).length = sp.len) := by
  have hlen : ∀ sp : Span, sp.start + sp.len ≤ buf.length →
      (sliceBytes buf sp).length = sp.len := by
    intro sp h
    rw [sliceBytes, List.length_take, List.length_drop]
    omega
  rcases parseFull_node_ok buf b hb with rfl | hok
  · rw [parseFull_eq]
    refine ⟨by simp [Block.src], ?_, ?_⟩
    · intro sp h
      rw [Block.content] at h
      cases h
    · intro sp h
      rw [Block.anno] at h
      cases h
  · obtain ⟨-, hsrc, hanno, hcont, -⟩ := nodeOk_parts _ _ hok
    refine ⟨hsrc, ?_, ?_⟩
    · intro sp h
      rw [h, optSpanLe, spanLe, decide_eq_true_eq] at hcont
      exact ⟨hcont, hlen sp hcont⟩
    · intro sp h
      rw [h, optSpanLe, spanLe, decide_eq_true_eq] at hanno
      exact ⟨hanno, hlen sp hanno⟩

/-- Witness for C8 at the buffer `"a"`: the RawText leaf's content
slice `(0, 1)` lies inside the buffer and reads back 1 byte. -/
theorem block_slices_in_buffer_witness :
    (0 : Nat) + 1 ≤ ([97] : List Nat).length ∧
    (sliceBytes [97] ⟨0, 1⟩).length = 1 := by
  have h := (block_slices_in_buffer [97]
    (Block.node .RawStr 0 2 none (some ⟨0, 1⟩) ⟨0, 1⟩ []) (by decide)).2.1 ⟨0, 1⟩ rfl
  exact h

/-- C10: NULL/length consistency of the `CBlock` view — for every block
reachable from a parsed tree, a `NULL` annotation pointer comes with
length 0, a `NULL` content pointer comes with length 0, and the child
array pointer is `NULL` exactly when the child count is 0. -/
theorem cblock_null_consistency (buf : List Nat) (b : Block)
    (_hb : b ∈ allBlocks (parseFull buf)) :
    (block_type_str_ptr b = none → block_type_str_len b = 0) ∧
    (content_ptr b = none → content_len b = 0) ∧
    (children_ptr b = none ↔ children_len b = 0) := by
  refine ⟨?_, ?_, ?_⟩
  · intro h
    rw [block_type_str_ptr, Option.map_eq_none'] at h
    rw [block_type_str_len, h]
  · intro h
    rw [content_ptr, Option.map_eq_none'] at h
    rw [content_len, h]
  · rw [children_ptr, children_len]
    cases hc : b.children with
    | nil => simp
    | cons c cs => simp

/-- Witness for C10 at the buffer `"a"`: the root Document of the parse
has a `NULL` annotation pointer with length 0, a `NULL` content pointer
with length 0, and a non-`NULL` child array with count 1. -/
theorem cblock_null_consistency_witness :
    (block_type_str_ptr (parseFull [97]) = none → block_type_str_len (parseFull [97]) = 0) ∧
    (content_ptr (parseFull [97]) = none → content_len (parseFull [97]) = 0) ∧
    (children_ptr (parseFull [97]) = none ↔ children_len (parseFull [97]) = 0) :=
  cblock_null_consistency [97] (parseFull [97]) (self_mem_allBlocks _)

/-- The `"helloworld"` buffer of the specification's gap-buffer
insertion test. -/
def hwBytes : List Nat := [104, 101, 108, 108, 111, 119, 111, 114, 108, 100]

/-- C3: gap-buffer insertion — inserting a valid UTF-8 byte string when
the cursor sits at byte offset `k` yields the old text with the string
spliced in at position `k`, and the cursor advances by the inserted
byte length. -/
theorem insert_text_at_cursor (s : EditSession) (text : List Nat)
    (h : validUtf8 text = true) :
    (handleTextInput s text).gap.text =
      s.gap.text.take s.cursorByteOffset ++ text ++ s.gap.text.drop s.cursorByteOffset ∧
    (handleTextInput s text).cursorByteOffset = s.cursorByteOffset + text.length := by
  rw [handleTextInput]
  simp only [h, if_true]
  constructor
  · simp [GapBuffer.text, GapBuffer.moveGap, GapBuffer.insertAtGap, List.append_assoc]
  · trivial

/-- Witness for C3: inserting `"X"` at offset 5 into `"helloworld"`
yields `"helloXworld"` and the cursor moves to 6. -/
theorem insert_text_at_cursor_witness :
    validUtf8 [88] = true ∧
    (handleTextInput (mkSession hwBytes 5) [88]).gap.text =
      [104, 101, 108, 108, 111, 88, 119, 111, 114, 108, 100] ∧
    (handleTextInput (mkSession hwBytes 5) [88]).cursorByteOffset = 6 := by
  refine ⟨by decide, ?_, ?_⟩
  · rw [(insert_text_at_cursor (mkSession hwBytes 5) [88] (by decide)).1]
    decide
  · rw [(insert_text_at_cursor (mkSession hwBytes 5) [88] (by decide)).2]
    decide

/-- C5: atomicity on bad input — text that is not valid UTF-8 is
rejected at the `insert_text` boundary and the whole session state
(buffer, cursor, tree, active block, metrics) is left exactly as it
was. -/
theorem insert_invalid_utf8_rejected (s : EditSession) (text : List Nat)
    (h : validUtf8 text = false) : handleTextInput s text = s := by
  rw [handleTextInput]
  simp [h]

/-- Witness for C5: inserting the invalid byte `0xFF` leaves the
session untouched. -/
theorem insert_invalid_utf8_rejected_witness :
    validUtf8 [255] = false ∧
    handleTextInput (mkSession [97] 0) [255] = mkSession [97] 0 :=
  ⟨by decide, insert_invalid_utf8_rejected _ _ (by decide)⟩

theorem snapBack_le (buf : List Nat) (k : Nat) : snapBack buf k ≤ k := by
  induction k with
  | zero => simp [snapBack]
  | succ k ih =>
    rw [snapBack]
    split
    · omega
    · exact Nat.le_refl _

theorem snapBack_boundary (buf : List Nat) (k : Nat) :
    utf8Boundary buf (snapBack buf k) = true := by
  induction k with
  | zero => simp [snapBack, utf8Boundary]
  | succ k ih =>
    rw [snapBack]
    split
    case isTrue hc => exact ih
    case isFalse hc =>
      rw [utf8Boundary]
      simp only [Bool.not_eq_true] at hc
      rw [hc]
      rfl

theorem snapBack_maximal (buf : List Nat) (k j : Nat)
    (h1 : snapBack buf k < j) (h2 : j ≤ k) : isCont (buf.getD j 0) = true := by
  induction k with
  | zero => omega
  | succ k ih =>
    rw [snapBack] at h1
    split at h1
    case isTrue hc =>
      rcases Nat.lt_or_ge j (k + 1) with hj | hj
      · exact ih h1 (by omega)
      · have : j = k + 1 := by omega
        rw [this]
        exact hc
    case isFalse hc => omega

/-- C4: cursor clamping and boundary snapping —
`set_cursor_byte_offset` never fails: for every requested offset the
stored cursor is clamped into `[0, buffer length]`, sits on a UTF-8
code-point boundary, no position between it and the clamped request is
a boundary (nearest boundary at or before), and the active block and
cursor metrics are recomputed from the new cursor. -/
theorem set_cursor_clamps_snaps (s : EditSession) (off : Nat) :
    (setCursorByteOffset s off).cursorByteOffset ≤ min off s.gap.text.length ∧
    utf8Boundary s.gap.text (setCursorByteOffset s off).cursorByteOffset = true ∧
    (∀ j, (setCursorByteOffset s off).cursorByteOffset < j →
      j ≤ min off s.gap.text.length → utf8Boundary s.gap.text j = false) ∧
    (setCursorByteOffset s off).activeBlockId =
      (activeBlockFor s.root (setCursorByteOffset s off).cursorByteOffset).map Block.ident ∧
    (setCursorByteOffset s off).metrics =
      computeMetrics s.gap.text (setCursorByteOffset s off).cursorByteOffset := by
  refine ⟨?_, ?_, ?_, rfl, rfl⟩
  · exact snapBack_le _ _
  · exact snapBack_boundary _ _
  · intro j hj1 hj2
    have hcont := snapBack_maximal s.gap.text (min off s.gap.text.length) j hj1 hj2
    rw [utf8Boundary, hcont]
    have : (j == 0) = false := by
      rw [beq_eq_false_iff_ne]
      omega
    rw [this]
    rfl

/-- Witness for C4 at the buffer `"aé"` (`é` is the two-byte sequence
`0xC3 0xA9`): requesting offset 2, the middle of the code point, snaps
the cursor to 1; position 1 is a boundary and position 2 is not. -/
theorem set_cursor_clamps_snaps_witness :
    (setCursorByteOffset (mkSession [97, 195, 169] 0) 2).cursorByteOffset = 1 ∧
    utf8Boundary [97, 195, 169] 1 = true ∧
    utf8Boundary [97, 195, 169] 2 = false := by
  have e1 : (mkSession [97, 195, 169] 0).gap.text = [97, 195, 169] := by decide
  have e2 : (setCursorByteOffset (mkSession [97, 195, 169] 0) 2).cursorByteOffset = 1 := by
    decide
  refine ⟨e2, ?_, ?_⟩
  · have h := (set_cursor_clamps_snaps (mkSession [97, 195, 169] 0) 2).2.1
    rwa [e1, e2] at h
  · have h := (set_cursor_clamps_snaps (mkSession [97, 195, 169] 0) 2).2.2.1 2
      (by rw [e2]; decide) (by rw [e1]; decide)
    rwa [e1] at h

mutual

theorem findActiveIn_sound (b : Block) (off : Nat)
    (hs : isStructural b.kind = true)
    (h1 : b.src.start ≤ off) (h2 : off ≤ b.src.start + b.src.len) :
    isStructural (findActiveIn b off).kind = true ∧
    (findActiveIn b off).src.start ≤ off ∧
    off ≤ (findActiveIn b off).src.start + (findActiveIn b off).src.len := by
  cases b with
  | node k v n a ct sp cs =>
    rw [findActiveIn]
    split
    case h_1 r hr => exact findActiveInL_sound cs off r hr
    case h_2 => exact ⟨hs, h1, h2⟩

theorem findActiveInL_sound (bs : List Block) (off : Nat) (r : Block)
    (h : findActiveInL bs off = some r) :
    isStructural r.kind = true ∧ r.src.start ≤ off ∧ off ≤ r.src.start + r.src.len := by
  cases bs with
  | nil => rw [findActiveInL] at h; cases h
  | cons c cs =>
    rw [findActiveInL] at h
    split at h
    case isTrue hg =>
      cases h
      simp only [Bool.and_eq_true, decide_eq_true_eq] at hg
      exact findActiveIn_sound c off hg.1.1 hg.1.2 hg.2
    case isFalse hg => exact findActiveInL_sound cs off r h

end

theorem activeBlockFor_sound (root : Block) (off : Nat) (r : Block)
    (h : activeBlockFor root off = some r) :
    isStructural r.kind = true ∧ r.src.start ≤ off ∧ off ≤ r.src.start + r.src.len :=
  findActiveInL_sound _ _ _ h

/-- C6: re-parse re-anchoring — after every text insertion the session
holds the tree of a full re-parse of the new buffer, its active block
id is exactly the id of the block resolved by mapping the post-edit
cursor into the new tree, and any resolved block is a structural block
whose source span contains the post-edit cursor offset. -/
theorem reparse_reanchors_active_block (s : EditSession) (text : List Nat)
    (h : validUtf8 text = true) :
    (handleTextInput s text).root = parseFull (handleTextInput s text).gap.text ∧
    (handleTextInput s text).activeBlockId =
      (activeBlockFor (handleTextInput s text).root
        (handleTextInput s text).cursorByteOffset).map Block.ident ∧
    ∀ b, activeBlockFor (handleTextInput s text).root
        (handleTextInput s text).cursorByteOffset = some b →
      isStructural b.kind = true ∧
      b.src.start ≤ (handleTextInput s text).cursorByteOffset ∧
      (handleTextInput s text).cursorByteOffset ≤ b.src.start + b.src.len := by
  refine ⟨?_, ?_, ?_⟩
  · rw [handleTextInput]
    simp only [h, if_true]
  · rw [handleTextInput]
    simp only [h, if_true]
  · intro b hb
    exact activeBlockFor_sound _ _ _ hb

/-- Witness for C6: typing `"X"` inside the `"helloworld"` paragraph
re-anchors the active block to a Paragraph block of the new tree. -/
theorem reparse_reanchors_active_block_witness :
    validUtf8 [88] = true ∧
    (handleTextInput (mkSession hwBytes 5) [88]).activeBlockId =
      (activeBlockFor (handleTextInput (mkSession hwBytes 5) [88]).root
        (handleTextInput (mkSession hwBytes 5) [88]).cursorByteOffset).map Block.ident ∧
    (activeBlockFor (handleTextInput (mkSession hwBytes 5) [88]).root
        (handleTextInput (mkSession hwBytes 5) [88]).cursorByteOffset).map Block.kind =
      some .Paragraph :=
  ⟨by decide, (reparse_reanchors_active_block (mkSession hwBytes 5) [88] (by decide)).2.1,
    by decide⟩

/-- C9: close semantics — closing a `NULL` handle is a no-op, closing
an already-invalid handle leaves the store unchanged, closing is
idempotent, and closing a handle frees its arena in one step: every
derived pointer into that arena becomes invalid. -/
theorem close_document_idempotent_frees :
    (∀ st : DocStore, closeDocument none st = st) ∧
    (∀ (st : DocStore) (d : CDocumentM), st.alive d.arena = false →
      closeDocument (some d) st = st) ∧
    (∀ (st : DocStore) (d : CDocumentM),
      closeDocument (some d) (closeDocument (some d) st) = closeDocument (some d) st) ∧
    (∀ (st : DocStore) (d : CDocumentM) (p : DerivedPtr), p.arena = d.arena →
      ptrValid (closeDocument (some d) st) p = false) := by
  refine ⟨fun st => rfl, ?_, ?_, ?_⟩
  · intro st d h
    simp only [closeDocument]
    have he : (fun a => if a == d.arena then false else st.alive a) = st.alive := by
      funext a
      cases hq : (a == d.arena)
      · simp
      · have ha : a = d.arena := by rwa [beq_iff_eq] at hq
        simp [ha, h]
    rw [he]
  · intro st d
    simp only [closeDocument]
    congr 1
    funext a
    cases hq : (a == d.arena) <;> simp [hq]
  · intro st d p h
    rw [ptrValid]
    simp only [closeDocument]
    have hb : (p.arena == d.arena) = true := by rw [beq_iff_eq]; exact h
    simp [hb]

/-- Witness for C9 at concrete stores: `NULL` close is a no-op, closing
an already-dead arena changes nothing, and after closing arena 0 a
pointer into arena 0 is invalid. -/
theorem close_document_idempotent_frees_witness :
    closeDocument none ⟨fun _ => true⟩ = (⟨fun _ => true⟩ : DocStore) ∧
    closeDocument (some ⟨0⟩) (⟨fun _ => false⟩ : DocStore) = ⟨fun _ => false⟩ ∧
    ptrValid (closeDocument (some ⟨0⟩) ⟨fun _ => true⟩) ⟨0⟩ = false :=
  ⟨close_document_idempotent_frees.1 _,
    close_document_idempotent_frees.2.1 _ _ rfl,
    close_document_idempotent_frees.2.2.2 _ _ _ rfl⟩
